import Mathlib

/-!
Verification of the parser-combinator execution core of `src/zero_copy/primitive.rs`
(chumsky). The primitive parsers (`End`, `Empty`, `Just`, `OneOf`, `NoneOf`, `Any`,
`TakeUntil`) and the variadic combinators (`Choice`, `Group`) are embedded as a deep
syntax `P` together with an executable evaluation function `P.go`, translated
clause-by-clause from the Rust `go` implementations. The cursor/mode/error
infrastructure (`InputRef`, `Mode`, `Error`, `Located`, `Container`), which lives
outside the provided source file, is modelled from the specification.
-/

set_option autoImplicit false

namespace Chumsky

/-- Modelled from the spec: the Cursor owns a position into the input and exposes
save/rewind checkpointing and span computation. Implemented, as the spec directs, as
an explicit offset index into an immutable input buffer. `InputRef` is not in the
provided sources. -/
structure Cursor (τ : Type) where
  input : List τ
  offset : Nat
deriving DecidableEq, Repr

/-- Modelled from the spec: a Checkpoint stores whatever is needed to restore the
exact pre-save cursor state; rewinding restores the cursor bit-for-bit. -/
abbrev Checkpoint (τ : Type) := Cursor τ

/-- Modelled from the spec: a Span is a half-open range between two positions. -/
structure Span where
  start : Nat
  stop : Nat
deriving DecidableEq, Repr

def Cursor.save {τ : Type} (c : Cursor τ) : Checkpoint τ := c

def Cursor.rewind {τ : Type} (_ : Cursor τ) (chk : Checkpoint τ) : Cursor τ := chk

/-- Modelled from the spec: `next()` advances by exactly one token or reports
end-of-input, returning the position before the advance for error-span purposes. -/
def Cursor.next {τ : Type} (c : Cursor τ) : (Nat × Option τ) × Cursor τ :=
  match c.input[c.offset]? with
  | some tok => ((c.offset, some tok), { c with offset := c.offset + 1 })
  | none => ((c.offset, none), c)

/-- Modelled from the spec: the half-open span from a checkpoint to the current
cursor position. -/
def Cursor.spanSince {τ : Type} (c : Cursor τ) (chk : Checkpoint τ) : Span :=
  ⟨chk.offset, c.offset⟩

/-- Modelled from the spec: an Error records the expected set (a set of optional
tokens, `none` meaning end of input), the found token (`none` meaning end of input
was reached) and the span. The expected set is kept as a list; the spec notes that
deduplication is not required. `Error` implementations are not in the provided
sources. -/
structure Err (τ : Type) where
  expected : List (Option τ)
  found : Option τ
  span : Span
deriving DecidableEq, Repr

/-- Modelled from the spec: `expected_found` constructs a failure record. -/
def Err.expectedFound {τ : Type} (expected : List (Option τ)) (found : Option τ)
    (span : Span) : Err τ :=
  ⟨expected, found, span⟩

/-- Modelled from the spec: `merge` unions the expected sets and keeps the
found/span of the error covering the larger (or equal) span. -/
def Err.merge {τ : Type} (a b : Err τ) : Err τ :=
  if a.span.stop < b.span.stop then ⟨a.expected ++ b.expected, b.found, b.span⟩
  else ⟨a.expected ++ b.expected, a.found, a.span⟩

/-- Modelled from the spec: a parse failure tagged with the position at which it
occurred. `Located` is not in the provided sources. -/
structure Located (τ : Type) where
  pos : Nat
  err : Err τ
deriving DecidableEq, Repr

/-- Modelled from the spec: `prioritize` applies the merge function when the two
errors' spans end at the same position, and otherwise keeps whichever error's span
ends strictly further into the input, discarding the other. -/
def Located.prioritize {τ : Type} (a b : Located τ) (m : Err τ → Err τ → Err τ) :
    Located τ :=
  if a.err.span.stop = b.err.span.stop then ⟨a.pos, m a.err b.err⟩
  else if b.err.span.stop < a.err.span.stop then a else b

/-- Modelled from the spec: the Mode engine, a compile-time-selectable evaluation
strategy with `bind`, `map` and `combine` operations threaded through every parser.
The `Mode` trait itself is not in the provided sources. -/
structure Mode : Type 1 where
  out : Type → Type
  bind : {α : Type} → (Unit → α) → out α
  map : {α β : Type} → out α → (α → β) → out β
  combine : {α β γ : Type} → out α → out β → (α → β → γ) → out γ

/-- Modelled from the spec: the Emit mode materialises real output values. -/
def Emit : Mode where
  out := fun α => α
  bind := fun f => f ()
  map := fun x g => g x
  combine := fun a b g => g a b

/-- Modelled from the spec: the Check mode discards every constructed value and
returns a zero-size placeholder, while executing all cursor effects identically. -/
def Check : Mode where
  out := fun _ => Unit
  bind := fun _ => ()
  map := fun _ _ => ()
  combine := fun _ _ _ => ()

/-- Modelled from the spec: a Container is an accumulator with `default()` and
`push`. The `Container` trait is not in the provided sources. -/
structure Container (τ σ : Type) where
  default : σ
  push : σ → τ → σ

/-- The growable-list instance of the Container capability. -/
def listContainer {τ : Type} : Container τ (List τ) :=
  ⟨[], fun l t => l ++ [t]⟩

/-- The flattened output tuple type of a Group over parsers with output types `os`,
matching the flat Rust tuples `(O1, ..., On)` (a 1-tuple is the value itself). -/
abbrev Tup : List Type → Type
  | [] => PUnit
  | [α] => α
  | α :: β :: rest => α × Tup (β :: rest)

/-- Prepend one component to a flattened tuple, as the `flatten_map!` macro does. -/
def Tup.consT : {α : Type} → {os : List Type} → α → Tup os → Tup (α :: os)
  | _, [], a, _ => a
  | _, _ :: _, a, t => (a, t)

mutual

/-- Deep embedding of the parsers defined in `primitive.rs`: `End`, `Empty`,
`Just`, `OneOf`, `NoneOf`, `Any`, `TakeUntil`, `Choice` and `Group`. A `Seq` of
tokens is embedded as the list of tokens it yields in order; `Choice` holds a
non-empty tuple of parsers (head plus tail), and `Group` a non-empty heterogeneous
tuple, matching the macro-generated implementations of arity at least one. -/
inductive P (τ : Type) : Type → Type 1 where
  | endP : P τ Unit
  | emptyP : P τ Unit
  | just : List τ → P τ (List τ)
  | oneOf : List τ → P τ τ
  | noneOf : List τ → P τ τ
  | anyP : P τ τ
  | takeUntil : {σ α : Type} → Container τ σ → P τ α → P τ (σ × α)
  | choice : {α : Type} → P τ α → PList τ α → P τ α
  | group : {os : List Type} → GroupList τ os → P τ (Tup os)

/-- The (possibly empty) tail of a `Choice` tuple of parsers. -/
inductive PList (τ : Type) : Type → Type 1 where
  | nil : {α : Type} → PList τ α
  | cons : {α : Type} → P τ α → PList τ α → PList τ α

/-- A non-empty heterogeneous tuple of parsers, the argument of a `Group`. -/
inductive GroupList (τ : Type) : List Type → Type 1 where
  | one : {α : Type} → P τ α → GroupList τ [α]
  | cons : {α : Type} → {os : List Type} → P τ α → GroupList τ os → GroupList τ (α :: os)

end

/-- `End::go`: save, read one token; end of input succeeds with unit, a present
token fails with an empty expected set and that token as found. -/
def endGo {τ : Type} (M : Mode) (c : Cursor τ) :
    Except (Located τ) (M.out Unit) × Cursor τ :=
  let before := c.save
  match c.next with
  | ((_, none), c') => (.ok (M.bind fun _ => ()), c')
  | ((at_, some tok), c') =>
      (.error ⟨at_, Err.expectedFound [] (some tok) (c'.spanSince before)⟩, c')

/-- The loop of `Just::go` over the remaining items of the sequence iterator; `seq`
is the full sequence, cloned as the output when the iterator is exhausted. -/
def justLoop {τ : Type} [DecidableEq τ] (M : Mode) (seq : List τ) :
    List τ → Cursor τ → Except (Located τ) (M.out (List τ)) × Cursor τ
  | [], c => (.ok (M.bind fun _ => seq), c)
  | next :: rest, c =>
    let before := c.save
    match c.next with
    | ((at_, some tok), c') =>
        if next = tok then justLoop M seq rest c'
        else (.error ⟨at_, Err.expectedFound [some next] (some tok) (c'.spanSince before)⟩, c')
    | ((at_, none), c') =>
        (.error ⟨at_, Err.expectedFound [some next] none (c'.spanSince before)⟩, c')

/-- `OneOf::go`: read one token and accept it when it is a member of the sequence;
otherwise fail with the whole sequence as the expected set. -/
def oneOfGo {τ : Type} [DecidableEq τ] (M : Mode) (seq : List τ) (c : Cursor τ) :
    Except (Located τ) (M.out τ) × Cursor τ :=
  let before := c.save
  match c.next with
  | ((at_, some tok), c') =>
      if seq.any fun t => t = tok then (.ok (M.bind fun _ => tok), c')
      else (.error ⟨at_, Err.expectedFound (seq.map some) (some tok) (c'.spanSince before)⟩, c')
  | ((at_, none), c') =>
      (.error ⟨at_, Err.expectedFound (seq.map some) none (c'.spanSince before)⟩, c')

/-- `NoneOf::go`: read one token and accept it when it is not a member of the
sequence; otherwise fail with an empty expected set. -/
def noneOfGo {τ : Type} [DecidableEq τ] (M : Mode) (seq : List τ) (c : Cursor τ) :
    Except (Located τ) (M.out τ) × Cursor τ :=
  let before := c.save
  match c.next with
  | ((at_, some tok), c') =>
      if seq.all fun t => ¬ t = tok then (.ok (M.bind fun _ => tok), c')
      else (.error ⟨at_, Err.expectedFound [] (some tok) (c'.spanSince before)⟩, c')
  | ((at_, none), c') =>
      (.error ⟨at_, Err.expectedFound [] none (c'.spanSince before)⟩, c')

/-- `Any::go`: read one token and accept it; fail with an empty expected set at end
of input. -/
def anyGo {τ : Type} (M : Mode) (c : Cursor τ) :
    Except (Located τ) (M.out τ) × Cursor τ :=
  let before := c.save
  match c.next with
  | ((_, some tok), c') => (.ok (M.bind fun _ => tok), c')
  | ((at_, none), c') =>
      (.error ⟨at_, Err.expectedFound [] none (c'.spanSince before)⟩, c')

/-- The loop of `TakeUntil::go`: attempt the terminator, stop on its success,
otherwise rewind to the loop start, consume one token into the accumulator and
retry, failing with the terminator's last error at end of input. The Rust loop is
unbounded; `fuel`, instantiated with the number of remaining input tokens, bounds
the recursion and is provably never exhausted (each retry consumes one token from
the rewound position). -/
def takeUntilAux {τ σ α : Type} (M : Mode) (ct : Container τ σ)
    (pgo : Cursor τ → Except (Located τ) (M.out α) × Cursor τ) :
    Nat → M.out σ → Cursor τ → Except (Located τ) (M.out (σ × α)) × Cursor τ
  | fuel, output, c =>
    let start := c.save
    match pgo c with
    | (.ok out, c') => (.ok (M.combine output out fun o a => (o, a)), c')
    | (.error e, c') =>
      match (c'.rewind start).next with
      | ((_, some tok), c₂) =>
        match fuel with
        | 0 => (.error e, c₂)
        | fuel' + 1 => takeUntilAux M ct pgo fuel' (M.map output fun o => ct.push o tok) c₂
      | ((_, none), c₂) => (.error e, c₂)

mutual

/-- The `go` function of each parser, translated clause-by-clause from the Rust
implementations in `primitive.rs`. -/
def P.go {τ : Type} [DecidableEq τ] {α : Type} (M : Mode) :
    P τ α → Cursor τ → Except (Located τ) (M.out α) × Cursor τ
  | .endP, c => endGo M c
  | .emptyP, c => (.ok (M.bind fun _ => ()), c)
  | .just seq, c => justLoop M seq seq c
  | .oneOf seq, c => oneOfGo M seq c
  | .noneOf seq, c => noneOfGo M seq c
  | .anyP, c => anyGo M c
  | .takeUntil ct p, c =>
      takeUntilAux M ct (fun c' => P.go M p c')
        (c.input.length - c.offset) (M.bind fun _ => ct.default) c
  | .choice p ps, c =>
      let before := c.save
      (match P.go M p c with
       | (.ok out, c') => (.ok out, c')
       | (.error e, c') => PList.goChoice M before e ps (c'.rewind before))
  | .group gs, c => GroupList.go M gs c

/-- The loop of `Choice::go` over the remaining branches: try each from the saved
checkpoint, return the first success, fold failures with `prioritize`/`merge`,
rewinding to the checkpoint after every failure. -/
def PList.goChoice {τ : Type} [DecidableEq τ] {α : Type} (M : Mode)
    (before : Checkpoint τ) (err : Located τ) :
    PList τ α → Cursor τ → Except (Located τ) (M.out α) × Cursor τ
  | .nil, c => (.error err, c)
  | .cons p ps, c =>
      match P.go M p c with
      | (.ok out, c') => (.ok out, c')
      | (.error e, c') =>
          PList.goChoice M before (err.prioritize e fun a b => a.merge b) ps (c'.rewind before)

/-- `Group::go`: run the sub-parsers strictly in order, propagate the first failure
unchanged without rewinding, and flatten the outputs with `combine` as the
`flatten_map!` macro does. -/
def GroupList.go {τ : Type} [DecidableEq τ] {os : List Type} (M : Mode) :
    GroupList τ os → Cursor τ → Except (Located τ) (M.out (Tup os)) × Cursor τ
  | .one p, c => P.go M p c
  | .cons p gs, c =>
      match P.go M p c with
      | (.error e, c') => (.error e, c')
      | (.ok out, c') =>
          match GroupList.go M gs c' with
          | (.error e, c'') => (.error e, c'')
          | (.ok rest, c'') => (.ok (M.combine out rest fun a r => Tup.consT a r), c'')

end

/-! ## Mode agreement (claim C1 machinery)

Two runs of the same parser in different modes agree on success versus failure, on
the error produced on failure, and on the final cursor; only the mode-wrapped
output value may differ. -/

/-- Two parse results have the same shape: both successes, or both failures
carrying the same located error. -/
def shapeEq {τ β₁ β₂ : Type} : Except (Located τ) β₁ → Except (Located τ) β₂ → Prop
  | .ok _, .ok _ => True
  | .error e₁, .error e₂ => e₁ = e₂
  | _, _ => False

/-- Two (result, cursor) pairs agree: same shape, same error on failure, same
final cursor. -/
def agree {τ β₁ β₂ : Type} (r₁ : Except (Located τ) β₁ × Cursor τ)
    (r₂ : Except (Located τ) β₂ × Cursor τ) : Prop :=
  shapeEq r₁.1 r₂.1 ∧ r₁.2 = r₂.2

@[simp] theorem shapeEq_ok_ok {τ β₁ β₂ : Type} (a : β₁) (b : β₂) :
    @shapeEq τ β₁ β₂ (.ok a) (.ok b) ↔ True := Iff.rfl

@[simp] theorem shapeEq_error_error {τ β₁ β₂ : Type} (e₁ e₂ : Located τ) :
    @shapeEq τ β₁ β₂ (.error e₁) (.error e₂) ↔ e₁ = e₂ := Iff.rfl

@[simp] theorem shapeEq_ok_error {τ β₁ β₂ : Type} (a : β₁) (e : Located τ) :
    @shapeEq τ β₁ β₂ (.ok a) (.error e) ↔ False := Iff.rfl

@[simp] theorem shapeEq_error_ok {τ β₁ β₂ : Type} (e : Located τ) (b : β₂) :
    @shapeEq τ β₁ β₂ (.error e) (.ok b) ↔ False := Iff.rfl

/-! ### Step lemmas for the cursor and the primitive go functions -/

theorem Cursor.next_some {τ : Type} {c : Cursor τ} {t : τ}
    (h : c.input[c.offset]? = some t) :
    c.next = ((c.offset, some t), ⟨c.input, c.offset + 1⟩) := by
  simp [Cursor.next, h]

theorem Cursor.next_none {τ : Type} {c : Cursor τ}
    (h : c.input[c.offset]? = none) :
    c.next = ((c.offset, none), c) := by
  simp [Cursor.next, h]

theorem endGo_none {τ : Type} (M : Mode) {c : Cursor τ}
    (h : c.input[c.offset]? = none) :
    endGo M c = (.ok (M.bind fun _ => ()), c) := by
  simp [endGo, Cursor.next_none h]

theorem endGo_some {τ : Type} (M : Mode) {c : Cursor τ} {t : τ}
    (h : c.input[c.offset]? = some t) :
    endGo M c = (.error ⟨c.offset, Err.expectedFound [] (some t) ⟨c.offset, c.offset + 1⟩⟩,
      ⟨c.input, c.offset + 1⟩) := by
  simp [endGo, Cursor.next_some h, Cursor.save, Cursor.spanSince]

theorem justLoop_nil {τ : Type} [DecidableEq τ] (M : Mode) (seq : List τ) (c : Cursor τ) :
    justLoop M seq [] c = (.ok (M.bind fun _ => seq), c) := rfl

theorem justLoop_cons_match {τ : Type} [DecidableEq τ] (M : Mode) (seq : List τ)
    {c : Cursor τ} {t : τ} (n : τ) (rest : List τ)
    (h : c.input[c.offset]? = some t) (he : n = t) :
    justLoop M seq (n :: rest) c = justLoop M seq rest ⟨c.input, c.offset + 1⟩ := by
  simp [justLoop, Cursor.next_some h, he]

theorem justLoop_cons_mismatch {τ : Type} [DecidableEq τ] (M : Mode) (seq : List τ)
    {c : Cursor τ} {t : τ} (n : τ) (rest : List τ)
    (h : c.input[c.offset]? = some t) (hne : ¬ n = t) :
    justLoop M seq (n :: rest) c =
      (.error ⟨c.offset, Err.expectedFound [some n] (some t) ⟨c.offset, c.offset + 1⟩⟩,
       ⟨c.input, c.offset + 1⟩) := by
  simp [justLoop, Cursor.next_some h, hne, Cursor.save, Cursor.spanSince]

theorem justLoop_cons_eoi {τ : Type} [DecidableEq τ] (M : Mode) (seq : List τ)
    {c : Cursor τ} (n : τ) (rest : List τ)
    (h : c.input[c.offset]? = none) :
    justLoop M seq (n :: rest) c =
      (.error ⟨c.offset, Err.expectedFound [some n] none ⟨c.offset, c.offset⟩⟩, c) := by
  simp [justLoop, Cursor.next_none h, Cursor.save, Cursor.spanSince]

theorem oneOfGo_some_mem {τ : Type} [DecidableEq τ] (M : Mode) (seq : List τ)
    {c : Cursor τ} {t : τ} (h : c.input[c.offset]? = some t) (hm : t ∈ seq) :
    oneOfGo M seq c = (.ok (M.bind fun _ => t), ⟨c.input, c.offset + 1⟩) := by
  have hcond : (seq.any fun x => decide (x = t)) = true := by
    simp only [List.any_eq_true, decide_eq_true_eq]
    exact ⟨t, hm, rfl⟩
  simp [oneOfGo, Cursor.next_some h, hcond]

theorem oneOfGo_some_not_mem {τ : Type} [DecidableEq τ] (M : Mode) (seq : List τ)
    {c : Cursor τ} {t : τ} (h : c.input[c.offset]? = some t) (hm : t ∉ seq) :
    oneOfGo M seq c =
      (.error ⟨c.offset, Err.expectedFound (seq.map some) (some t) ⟨c.offset, c.offset + 1⟩⟩,
       ⟨c.input, c.offset + 1⟩) := by
  have hcond : (seq.any fun x => decide (x = t)) = false := by
    simp only [List.any_eq_false, decide_eq_true_eq]
    intro x hx he
    exact hm (he ▸ hx)
  simp [oneOfGo, Cursor.next_some h, hcond, Cursor.save, Cursor.spanSince]

theorem oneOfGo_none {τ : Type} [DecidableEq τ] (M : Mode) (seq : List τ)
    {c : Cursor τ} (h : c.input[c.offset]? = none) :
    oneOfGo M seq c =
      (.error ⟨c.offset, Err.expectedFound (seq.map some) none ⟨c.offset, c.offset⟩⟩, c) := by
  simp [oneOfGo, Cursor.next_none h, Cursor.save, Cursor.spanSince]

theorem noneOfGo_some_mem {τ : Type} [DecidableEq τ] (M : Mode) (seq : List τ)
    {c : Cursor τ} {t : τ} (h : c.input[c.offset]? = some t) (hm : t ∈ seq) :
    noneOfGo M seq c =
      (.error ⟨c.offset, Err.expectedFound [] (some t) ⟨c.offset, c.offset + 1⟩⟩,
       ⟨c.input, c.offset + 1⟩) := by
  have hcond : (seq.all fun x => decide (¬ x = t)) = false := by
    refine List.all_eq_false.2 ⟨t, hm, ?_⟩
    simp
  simp [noneOfGo, Cursor.next_some h, hcond, hm, Cursor.save, Cursor.spanSince]

theorem noneOfGo_some_not_mem {τ : Type} [DecidableEq τ] (M : Mode) (seq : List τ)
    {c : Cursor τ} {t : τ} (h : c.input[c.offset]? = some t) (hm : t ∉ seq) :
    noneOfGo M seq c = (.ok (M.bind fun _ => t), ⟨c.input, c.offset + 1⟩) := by
  have hcond : (seq.all fun x => decide (¬ x = t)) = true := by
    simp only [List.all_eq_true, decide_eq_true_eq]
    intro x hx he
    subst he
    exact hm hx
  simp [noneOfGo, Cursor.next_some h, hcond, hm]

theorem noneOfGo_none {τ : Type} [DecidableEq τ] (M : Mode) (seq : List τ)
    {c : Cursor τ} (h : c.input[c.offset]? = none) :
    noneOfGo M seq c =
      (.error ⟨c.offset, Err.expectedFound [] none ⟨c.offset, c.offset⟩⟩, c) := by
  simp [noneOfGo, Cursor.next_none h, Cursor.save, Cursor.spanSince]

theorem anyGo_some {τ : Type} (M : Mode) {c : Cursor τ} {t : τ}
    (h : c.input[c.offset]? = some t) :
    anyGo M c = (.ok (M.bind fun _ => t), ⟨c.input, c.offset + 1⟩) := by
  simp [anyGo, Cursor.next_some h]

theorem anyGo_none {τ : Type} (M : Mode) {c : Cursor τ}
    (h : c.input[c.offset]? = none) :
    anyGo M c =
      (.error ⟨c.offset, Err.expectedFound [] none ⟨c.offset, c.offset⟩⟩, c) := by
  simp [anyGo, Cursor.next_none h, Cursor.save, Cursor.spanSince]

/-! ### Mode agreement of the primitive go functions -/

theorem endGo_agree {τ : Type} (M M' : Mode) (c : Cursor τ) :
    agree (endGo M c) (endGo M' c) := by
  rcases h : c.input[c.offset]? with _ | t
  · rw [endGo_none M h, endGo_none M' h]; exact ⟨trivial, rfl⟩
  · rw [endGo_some M h, endGo_some M' h]; exact ⟨rfl, rfl⟩

theorem justLoop_agree {τ : Type} [DecidableEq τ] (M M' : Mode) (seq : List τ) :
    ∀ (items : List τ) (c : Cursor τ),
      agree (justLoop M seq items c) (justLoop M' seq items c) := by
  intro items
  induction items with
  | nil => intro c; exact ⟨trivial, rfl⟩
  | cons n rest ih =>
      intro c
      rcases h : c.input[c.offset]? with _ | t
      · rw [justLoop_cons_eoi M seq n rest h, justLoop_cons_eoi M' seq n rest h]
        exact ⟨rfl, rfl⟩
      · by_cases he : n = t
        · rw [justLoop_cons_match M seq n rest h he, justLoop_cons_match M' seq n rest h he]
          exact ih _
        · rw [justLoop_cons_mismatch M seq n rest h he,
            justLoop_cons_mismatch M' seq n rest h he]
          exact ⟨rfl, rfl⟩

theorem oneOfGo_agree {τ : Type} [DecidableEq τ] (M M' : Mode) (seq : List τ)
    (c : Cursor τ) : agree (oneOfGo M seq c) (oneOfGo M' seq c) := by
  rcases h : c.input[c.offset]? with _ | t
  · rw [oneOfGo_none M seq h, oneOfGo_none M' seq h]; exact ⟨rfl, rfl⟩
  · by_cases hm : t ∈ seq
    · rw [oneOfGo_some_mem M seq h hm, oneOfGo_some_mem M' seq h hm]; exact ⟨trivial, rfl⟩
    · rw [oneOfGo_some_not_mem M seq h hm, oneOfGo_some_not_mem M' seq h hm]
      exact ⟨rfl, rfl⟩

theorem noneOfGo_agree {τ : Type} [DecidableEq τ] (M M' : Mode) (seq : List τ)
    (c : Cursor τ) : agree (noneOfGo M seq c) (noneOfGo M' seq c) := by
  rcases h : c.input[c.offset]? with _ | t
  · rw [noneOfGo_none M seq h, noneOfGo_none M' seq h]; exact ⟨rfl, rfl⟩
  · by_cases hm : t ∈ seq
    · rw [noneOfGo_some_mem M seq h hm, noneOfGo_some_mem M' seq h hm]; exact ⟨rfl, rfl⟩
    · rw [noneOfGo_some_not_mem M seq h hm, noneOfGo_some_not_mem M' seq h hm]
      exact ⟨trivial, rfl⟩

theorem anyGo_agree {τ : Type} (M M' : Mode) (c : Cursor τ) :
    agree (anyGo M c) (anyGo M' c) := by
  rcases h : c.input[c.offset]? with _ | t
  · rw [anyGo_none M h, anyGo_none M' h]; exact ⟨rfl, rfl⟩
  · rw [anyGo_some M h, anyGo_some M' h]; exact ⟨trivial, rfl⟩

theorem takeUntilAux_agree {τ σ α : Type} (M M' : Mode) (ct : Container τ σ)
    (pgo : Cursor τ → Except (Located τ) (M.out α) × Cursor τ)
    (pgo' : Cursor τ → Except (Located τ) (M'.out α) × Cursor τ)
    (h : ∀ c, agree (pgo c) (pgo' c)) :
    ∀ (fuel : Nat) (out : M.out σ) (out' : M'.out σ) (c : Cursor τ),
      agree (takeUntilAux M ct pgo fuel out c) (takeUntilAux M' ct pgo' fuel out' c) := by
  intro fuel
  induction fuel with
  | zero =>
      intro out out' c
      obtain ⟨hs, hc⟩ := h c
      rcases hp : pgo c with ⟨r, c₁⟩
      rcases hp' : pgo' c with ⟨r', c₂⟩
      rw [hp, hp'] at hs hc
      simp only at hs hc
      subst hc
      rw [takeUntilAux, takeUntilAux]
      cases r with
      | ok o₁ =>
          cases r' with
          | ok o₂ => simp [hp, hp', agree]
          | error e₂ => simp [shapeEq] at hs
      | error e₁ =>
          cases r' with
          | ok o₂ => simp [shapeEq] at hs
          | error e₂ =>
              simp only [shapeEq_error_error] at hs
              subst hs
              rcases hn : (Cursor.rewind c₁ c.save).next with ⟨⟨a, otok⟩, c₃⟩
              cases otok <;> simp [hp, hp', hn, agree]
  | succ n ih =>
      intro out out' c
      obtain ⟨hs, hc⟩ := h c
      rcases hp : pgo c with ⟨r, c₁⟩
      rcases hp' : pgo' c with ⟨r', c₂⟩
      rw [hp, hp'] at hs hc
      simp only at hs hc
      subst hc
      rw [takeUntilAux, takeUntilAux]
      cases r with
      | ok o₁ =>
          cases r' with
          | ok o₂ => simp [hp, hp', agree]
          | error e₂ => simp [shapeEq] at hs
      | error e₁ =>
          cases r' with
          | ok o₂ => simp [shapeEq] at hs
          | error e₂ =>
              simp only [shapeEq_error_error] at hs
              subst hs
              rcases hn : (Cursor.rewind c₁ c.save).next with ⟨⟨a, otok⟩, c₃⟩
              cases otok with
              | none => simp [hp, hp', hn, agree]
              | some tok =>
                  simp only [hp, hp', hn]
                  exact ih _ _ c₃

mutual

theorem go_agree {τ : Type} [DecidableEq τ] {α : Type} (M M' : Mode) :
    ∀ (p : P τ α) (c : Cursor τ), agree (P.go M p c) (P.go M' p c)
  | .endP, c => by
      simp only [P.go]
      exact endGo_agree M M' c
  | .emptyP, c => by
      simp only [P.go]
      exact ⟨trivial, rfl⟩
  | .just seq, c => by
      simp only [P.go]
      exact justLoop_agree M M' seq seq c
  | .oneOf seq, c => by
      simp only [P.go]
      exact oneOfGo_agree M M' seq c
  | .noneOf seq, c => by
      simp only [P.go]
      exact noneOfGo_agree M M' seq c
  | .anyP, c => by
      simp only [P.go]
      exact anyGo_agree M M' c
  | .takeUntil ct p, c => by
      simp only [P.go]
      exact takeUntilAux_agree M M' ct _ _ (fun c' => go_agree M M' p c') _ _ _ c
  | .choice p ps, c => by
      simp only [P.go]
      obtain ⟨hs, hc⟩ := go_agree M M' p c
      rcases hp : P.go M p c with ⟨r, c₁⟩
      rcases hp' : P.go M' p c with ⟨r', c₂⟩
      rw [hp, hp'] at hs hc
      simp only at hs hc
      subst hc
      cases r with
      | ok o =>
          cases r' with
          | ok o' => simp [hp, hp', agree]
          | error e => simp [shapeEq] at hs
      | error e =>
          cases r' with
          | ok o' => simp [shapeEq] at hs
          | error e' =>
              simp only [shapeEq_error_error] at hs
              subst hs
              simp only [hp, hp']
              exact goChoice_agree M M' c.save ps _ _
  | .group gs, c => by
      simp only [P.go]
      exact goGroup_agree M M' gs c

theorem goChoice_agree {τ : Type} [DecidableEq τ] {α : Type} (M M' : Mode)
    (before : Checkpoint τ) :
    ∀ (ps : PList τ α) (err : Located τ) (c : Cursor τ),
      agree (PList.goChoice M before err ps c) (PList.goChoice M' before err ps c)
  | .nil, err, c => by
      simp only [PList.goChoice]
      exact ⟨rfl, rfl⟩
  | .cons p ps, err, c => by
      simp only [PList.goChoice]
      obtain ⟨hs, hc⟩ := go_agree M M' p c
      rcases hp : P.go M p c with ⟨r, c₁⟩
      rcases hp' : P.go M' p c with ⟨r', c₂⟩
      rw [hp, hp'] at hs hc
      simp only at hs hc
      subst hc
      cases r with
      | ok o =>
          cases r' with
          | ok o' => simp [hp, hp', agree]
          | error e => simp [shapeEq] at hs
      | error e =>
          cases r' with
          | ok o' => simp [shapeEq] at hs
          | error e' =>
              simp only [shapeEq_error_error] at hs
              subst hs
              simp only [hp, hp']
              exact goChoice_agree M M' before ps _ _

theorem goGroup_agree {τ : Type} [DecidableEq τ] {os : List Type} (M M' : Mode) :
    ∀ (gs : GroupList τ os) (c : Cursor τ),
      agree (GroupList.go M gs c) (GroupList.go M' gs c)
  | .one p, c => by
      simp only [GroupList.go]
      exact go_agree M M' p c
  | .cons p gs, c => by
      simp only [GroupList.go]
      obtain ⟨hs, hc⟩ := go_agree M M' p c
      rcases hp : P.go M p c with ⟨r, c₁⟩
      rcases hp' : P.go M' p c with ⟨r', c₂⟩
      rw [hp, hp'] at hs hc
      simp only at hs hc
      subst hc
      cases r with
      | error e =>
          cases r' with
          | ok o' => simp [shapeEq] at hs
          | error e' =>
              simp only [shapeEq_error_error] at hs
              subst hs
              simp [hp, hp', agree]
      | ok o =>
          cases r' with
          | error e' => simp [shapeEq] at hs
          | ok o' =>
              simp only [hp, hp']
              obtain ⟨hs₂, hc₂⟩ := goGroup_agree M M' gs c₁
              rcases hq : GroupList.go M gs c₁ with ⟨s, d₁⟩
              rcases hq' : GroupList.go M' gs c₁ with ⟨s', d₂⟩
              rw [hq, hq'] at hs₂ hc₂
              simp only at hs₂ hc₂
              subst hc₂
              cases s with
              | ok u =>
                  cases s' with
                  | ok u' => simp [agree]
                  | error f => simp [shapeEq] at hs₂
              | error f =>
                  cases s' with
                  | ok u' => simp [shapeEq] at hs₂
                  | error f' =>
                      simp only [shapeEq_error_error] at hs₂
                      subst hs₂
                      simp [agree]

end

/-- C1: for every parser defined in `primitive.rs` (`End`, `Empty`, `Just`,
`OneOf`, `NoneOf`, `Any`, `TakeUntil`, `Choice`, `Group`) and every input, running
its `go` function in Check mode and in Emit mode agree on success versus failure,
on the error produced on failure, and on the final cursor position; the two modes
differ only in whether a constructed output value is available afterward. -/
theorem check_emit_mode_equivalence {τ : Type} [DecidableEq τ] {α : Type}
    (p : P τ α) (c : Cursor τ) :
    agree (P.go Check p c) (P.go Emit p c) :=
  go_agree Check Emit p c

/-! ## Choice (claims C2 and C3) -/

/-- The behaviour the spec prescribes for the remaining Choice branches: every
attempt starts from the checkpoint cursor `c` saved before the first attempt, the
cursor state of a failed attempt is discarded, the first success returns
immediately, failures are folded with `prioritize`/`merge`, and when every branch
fails the caller sees cursor `c` itself. -/
def choiceSpec {τ : Type} [DecidableEq τ] {α : Type} (M : Mode) (c : Cursor τ) :
    PList τ α → Located τ → Except (Located τ) (M.out α) × Cursor τ
  | .nil, err => (.error err, c)
  | .cons p ps, err =>
      match P.go M p c with
      | (.ok out, c') => (.ok out, c')
      | (.error e, _) => choiceSpec M c ps (err.prioritize e fun a b => a.merge b)

theorem goChoice_eq_choiceSpec {τ : Type} [DecidableEq τ] {α : Type} (M : Mode)
    (before : Cursor τ) :
    ∀ (ps : PList τ α) (err : Located τ),
      PList.goChoice M before err ps before = choiceSpec M before ps err
  | .nil, err => by
      simp [PList.goChoice, choiceSpec]
  | .cons p ps, err => by
      simp only [PList.goChoice, choiceSpec]
      rcases hp : P.go M p before with ⟨r, c₁⟩
      cases r with
      | ok o => simp
      | error e =>
          simp only [Cursor.rewind]
          exact goChoice_eq_choiceSpec M before ps _

/-- C2: for every Choice over parsers (head plus tail) and every cursor state,
each sub-parser attempt begins from cursor state identical to the checkpoint `c`
saved before the first attempt: after any sub-parser fails the cursor is rewound
to that checkpoint before the next attempt (the failed attempt cursor is
discarded), and when every branch fails the returned cursor is the checkpoint
itself, so no partial consumption from a failed branch is visible to a subsequent
branch or to the caller. -/
theorem choice_no_leak {τ : Type} [DecidableEq τ] {α : Type} (M : Mode)
    (p : P τ α) (ps : PList τ α) (c : Cursor τ) :
    P.go M (.choice p ps) c =
      match P.go M p c with
      | (.ok out, c') => (.ok out, c')
      | (.error e, _) => choiceSpec M c ps e := by
  simp only [P.go]
  rcases hp : P.go M p c with ⟨r, c₁⟩
  cases r with
  | ok o => rfl
  | error e =>
      simp only [Cursor.save, Cursor.rewind]
      exact goChoice_eq_choiceSpec M c ps e

/-- Every branch in the list fails when run from cursor `c`, with the listed
errors, in order. -/
def FailsAll {τ : Type} [DecidableEq τ] {α : Type} (M : Mode) (c : Cursor τ) :
    PList τ α → List (Located τ) → Prop
  | .nil, [] => True
  | .cons p ps, e :: es => (P.go M p c).1 = .error e ∧ FailsAll M c ps es
  | _, _ => False

theorem choiceSpec_failsAll {τ : Type} [DecidableEq τ] {α : Type} (M : Mode)
    (c : Cursor τ) :
    ∀ (ps : PList τ α) (es : List (Located τ)) (err : Located τ),
      FailsAll M c ps es →
      choiceSpec M c ps err =
        (.error (es.foldl (fun a e => a.prioritize e fun x y => x.merge y) err), c)
  | .nil, [], err, _ => by simp [choiceSpec]
  | .nil, _ :: _, err, hf => absurd hf (by simp [FailsAll])
  | .cons p ps, [], err, hf => absurd hf (by simp [FailsAll])
  | .cons p ps, e :: es, err, hf => by
      obtain ⟨h1, h2⟩ := hf
      simp only [choiceSpec]
      rcases hp : P.go M p c with ⟨r, c₁⟩
      rw [hp] at h1
      simp only at h1
      cases r with
      | ok o => exact absurd h1 (by simp)
      | error e' =>
          simp only [Except.error.injEq] at h1
          subst h1
          simp only [List.foldl]
          exact choiceSpec_failsAll M c ps es _ h2

/-- The branch tuple (head plus tail) of a Choice, with every branch run from the
checkpoint cursor `c`, has its first success at some branch: every branch listed
before it fails from `c`, and that branch succeeds from `c` with the given output
and final cursor. Branches after the first success are unconstrained. -/
inductive FirstSuccess {τ : Type} [DecidableEq τ] {α : Type} (M : Mode)
    (c : Cursor τ) : P τ α → PList τ α → M.out α → Cursor τ → Prop where
  | head {p : P τ α} {ps : PList τ α} {out : M.out α} {c' : Cursor τ} :
      P.go M p c = (.ok out, c') → FirstSuccess M c p ps out c'
  | tail {p q : P τ α} {ps : PList τ α} {e : Located τ} {out : M.out α}
      {c' : Cursor τ} :
      (P.go M p c).1 = .error e → FirstSuccess M c q ps out c' →
      FirstSuccess M c p (.cons q ps) out c'

theorem goChoice_of_firstSuccess {τ : Type} [DecidableEq τ] {α : Type} (M : Mode)
    (c : Cursor τ) :
    ∀ (q : P τ α) (ps : PList τ α) (out : M.out α) (c' : Cursor τ),
      FirstSuccess M c q ps out c' →
      ∀ err, PList.goChoice M c err (.cons q ps) c = (.ok out, c')
  | q, ps, out, c', .head hp, err => by
      simp [PList.goChoice, hp]
  | q, .cons q₂ ps₂, out, c', .tail hq h', err => by
      rcases hp : P.go M q c with ⟨r, c₁⟩
      rw [hp] at hq
      simp only at hq
      cases r with
      | ok o => exact absurd hq (by simp)
      | error e₂ =>
          simp only [Except.error.injEq] at hq
          subst hq
          simp only [PList.goChoice, hp, Cursor.rewind]
          exact goChoice_of_firstSuccess M c q₂ ps₂ out c' h' _

/-- C3: for every Choice over parsers (head plus tail), sub-parsers are tried in
listed order from the saved checkpoint and the first one to succeed determines the
result, with no further sub-parsers attempted: whichever branch is the first to
succeed — every earlier branch failing, later branches unconstrained — its output
and cursor are the Choice's result (in particular, if both the head and a later
branch would succeed, the head's result is returned); and if all sub-parsers fail,
the returned error is the left fold of the branch errors via `prioritize`/`merge`
and the cursor is the checkpoint. -/
theorem choice_order_and_error_fold {τ : Type} [DecidableEq τ] {α : Type}
    (M : Mode) (p : P τ α) (ps : PList τ α) (c : Cursor τ) :
    (∀ out c', FirstSuccess M c p ps out c' →
        P.go M (.choice p ps) c = (.ok out, c'))
    ∧ (∀ e es, (P.go M p c).1 = .error e → FailsAll M c ps es →
        P.go M (.choice p ps) c =
          (.error (es.foldl (fun a e' => a.prioritize e' fun x y => x.merge y) e), c)) := by
  constructor
  · intro out c' h
    cases h with
    | head hp => simp only [P.go, hp]
    | tail hq h' =>
        rcases hp : P.go M p c with ⟨r, c₁⟩
        rw [hp] at hq
        simp only at hq
        cases r with
        | ok o => exact absurd hq (by simp)
        | error e₂ =>
            simp only [Except.error.injEq] at hq
            subst hq
            simp only [P.go, hp, Cursor.save, Cursor.rewind]
            exact goChoice_of_firstSuccess M c _ _ out c' h' _
  · intro e es he hf
    rcases hp : P.go M p c with ⟨r, c₁⟩
    rw [hp] at he
    simp only at he
    cases r with
    | ok o => exact absurd he (by simp)
    | error e' =>
        simp only [Except.error.injEq] at he
        subst he
        simp only [P.go, hp, Cursor.save, Cursor.rewind]
        rw [goChoice_eq_choiceSpec M c ps e']
        exact choiceSpec_failsAll M c ps es e' hf

/-- Witness for C3: the head of a Choice wins when it succeeds even though the
second branch would also succeed; when the head fails, the first succeeding later
branch determines the result; and an all-fail Choice returns the fold of the
branch errors with the cursor rewound to the start. -/
theorem choice_order_and_error_fold_witness :
    (P.go Emit (P.choice (P.just [1]) (.cons (P.just [1, 2]) .nil)) ⟨[1, 2], 0⟩
      = (.ok [1], ⟨[1, 2], 1⟩))
    ∧ (P.go Emit (P.choice (P.just [5]) (.cons (P.just [1, 2]) .nil)) ⟨[1, 2], 0⟩
      = (.ok [1, 2], ⟨[1, 2], 2⟩))
    ∧ (P.go Emit (P.choice (P.just [5]) (.cons (P.just [9]) .nil)) ⟨[1, 2], 0⟩
      = (.error ⟨0, Err.expectedFound [some 5, some 9] (some 1) ⟨0, 1⟩⟩, ⟨[1, 2], 0⟩)) :=
  ⟨(choice_order_and_error_fold Emit (P.just [1]) (.cons (P.just [1, 2]) .nil)
      ⟨[1, 2], 0⟩).1 [1] ⟨[1, 2], 1⟩ (FirstSuccess.head rfl),
   (choice_order_and_error_fold Emit (P.just [5]) (.cons (P.just [1, 2]) .nil)
      ⟨[1, 2], 0⟩).1 [1, 2] ⟨[1, 2], 2⟩
      (FirstSuccess.tail
        (show (P.go Emit (P.just [5]) ⟨[1, 2], 0⟩).1
          = .error ⟨0, Err.expectedFound [some 5] (some 1) ⟨0, 1⟩⟩ from rfl)
        (FirstSuccess.head rfl)),
   (choice_order_and_error_fold Emit (P.just [5]) (.cons (P.just [9]) .nil)
      ⟨[1, 2], 0⟩).2 ⟨0, Err.expectedFound [some 5] (some 1) ⟨0, 1⟩⟩
      [⟨0, Err.expectedFound [some 9] (some 1) ⟨0, 1⟩⟩] rfl ⟨rfl, trivial⟩⟩

/-! ## Group (claim C4) -/

/-- The spec's success algorithm for Group, written from the spec's words: the
sub-parsers run strictly in listed order, each from the cursor where the previous
one stopped, and the outputs are flattened into a tuple preserving left-to-right
order. -/
inductive GroupRuns {τ : Type} [DecidableEq τ] (M : Mode) :
    {os : List Type} → GroupList τ os → Cursor τ → M.out (Tup os) → Cursor τ → Prop where
  | one {α : Type} {p : P τ α} {c c' : Cursor τ} {out : M.out α} :
      P.go M p c = (.ok out, c') → GroupRuns M (.one p) c out c'
  | cons {α : Type} {os : List Type} {p : P τ α} {gs : GroupList τ os}
      {c c' c'' : Cursor τ} {out : M.out α} {rest : M.out (Tup os)} :
      P.go M p c = (.ok out, c') → GroupRuns M gs c' rest c'' →
      GroupRuns M (.cons p gs) c (M.combine out rest fun a r => Tup.consT a r) c''

/-- The spec's failure algorithm for Group, written from the spec's words: the
first sub-parser to fail determines the error, every earlier sub-parser having
succeeded in order, and the cursor is wherever the failing sub-parser left it. -/
inductive GroupFails {τ : Type} [DecidableEq τ] (M : Mode) :
    {os : List Type} → GroupList τ os → Cursor τ → Located τ → Cursor τ → Prop where
  | one {α : Type} {p : P τ α} {c c' : Cursor τ} {e : Located τ} :
      P.go M p c = (.error e, c') → GroupFails M (.one p) c e c'
  | headFail {α : Type} {os : List Type} {p : P τ α} {gs : GroupList τ os}
      {c c' : Cursor τ} {e : Located τ} :
      P.go M p c = (.error e, c') → GroupFails M (.cons p gs) c e c'
  | headSucc {α : Type} {os : List Type} {p : P τ α} {gs : GroupList τ os}
      {c c' c'' : Cursor τ} {out : M.out α} {e : Located τ} :
      P.go M p c = (.ok out, c') → GroupFails M gs c' e c'' →
      GroupFails M (.cons p gs) c e c''

theorem goGroup_of_fails {τ : Type} [DecidableEq τ] (M : Mode) {os : List Type}
    {gs : GroupList τ os} {c c' : Cursor τ} {e : Located τ}
    (h : GroupFails M gs c e c') : GroupList.go M gs c = (.error e, c') := by
  induction h with
  | one hp => simp only [GroupList.go]; rw [hp]
  | headFail hp => simp only [GroupList.go]; rw [hp]
  | headSucc hp _ ih => simp [GroupList.go, hp, ih]

theorem goGroup_of_runs {τ : Type} [DecidableEq τ] (M : Mode) {os : List Type}
    {gs : GroupList τ os} {c c' : Cursor τ} {out : M.out (Tup os)}
    (h : GroupRuns M gs c out c') : GroupList.go M gs c = (.ok out, c') := by
  induction h with
  | one hp => simp only [GroupList.go]; rw [hp]
  | cons hp _ ih => simp [GroupList.go, hp, ih]

theorem goGroup_total {τ : Type} [DecidableEq τ] (M : Mode) :
    ∀ {os : List Type} (gs : GroupList τ os) (c : Cursor τ),
      (∃ out c', GroupList.go M gs c = (.ok out, c') ∧ GroupRuns M gs c out c')
      ∨ (∃ e c', GroupList.go M gs c = (.error e, c') ∧ GroupFails M gs c e c')
  | _, .one p, c => by
      rcases hp : P.go M p c with ⟨r, c₁⟩
      cases r with
      | ok o =>
          exact Or.inl ⟨o, c₁, by simp only [GroupList.go]; rw [hp], GroupRuns.one hp⟩
      | error e =>
          exact Or.inr ⟨e, c₁, by simp only [GroupList.go]; rw [hp], GroupFails.one hp⟩
  | _, .cons p gs, c => by
      rcases hp : P.go M p c with ⟨r, c₁⟩
      cases r with
      | error e =>
          exact Or.inr ⟨e, c₁, by simp only [GroupList.go]; rw [hp], GroupFails.headFail hp⟩
      | ok o =>
          rcases goGroup_total M gs c₁ with ⟨u, c₂, hq, hr⟩ | ⟨e, c₂, hq, hr⟩
          · exact Or.inl ⟨M.combine o u (fun a r => Tup.consT a r), c₂,
              by simp [GroupList.go, hp, hq], GroupRuns.cons hp hr⟩
          · exact Or.inr ⟨e, c₂,
              by simp [GroupList.go, hp, hq], GroupFails.headSucc hp hr⟩

/-- C4: for every Group over parsers (arity at least one), the sub-parsers run
strictly in listed order; on the first sub-parser failure the Group returns that
sub-parser's error unchanged and leaves the cursor exactly where that sub-parser
left it (no rewind, no merging); on full success the output is the flattened tuple
of the sub-parsers' outputs in left-to-right order. Moreover every run of the
Group is of exactly one of these two forms. -/
theorem group_order_shortcircuit {τ : Type} [DecidableEq τ] {os : List Type}
    (M : Mode) (gs : GroupList τ os) (c : Cursor τ) :
    (∀ e c', GroupFails M gs c e c' → P.go M (.group gs) c = (.error e, c'))
    ∧ (∀ out c', GroupRuns M gs c out c' → P.go M (.group gs) c = (.ok out, c'))
    ∧ ((∃ out c', P.go M (.group gs) c = (.ok out, c') ∧ GroupRuns M gs c out c')
        ∨ (∃ e c', P.go M (.group gs) c = (.error e, c') ∧ GroupFails M gs c e c')) := by
  refine ⟨?_, ?_, ?_⟩
  · intro e c' h
    simp only [P.go]
    exact goGroup_of_fails M h
  · intro out c' h
    simp only [P.go]
    exact goGroup_of_runs M h
  · simp only [P.go]
    exact goGroup_total M gs c

/-- Witness for C4: a two-parser Group whose second member fails stops at the
second member's error without rewinding past the first member's consumption, and
the same Group on matching input returns the pair of outputs in order. -/
theorem group_order_shortcircuit_witness :
    (P.go Emit (P.group (.cons (P.just [1]) (.one (P.just [2])))) ⟨[1, 3], 0⟩
      = (.error ⟨1, Err.expectedFound [some 2] (some 3) ⟨1, 2⟩⟩, ⟨[1, 3], 2⟩))
    ∧ (P.go Emit (P.group (.cons (P.just [1]) (.one (P.just [2])))) ⟨[1, 2], 0⟩
      = (.ok ([1], [2]), ⟨[1, 2], 2⟩)) :=
  ⟨(group_order_shortcircuit Emit (.cons (P.just [1]) (.one (P.just [2]))) ⟨[1, 3], 0⟩).1
      _ _ (GroupFails.headSucc
        (show P.go Emit (P.just [1]) ⟨[1, 3], 0⟩ = (.ok [1], ⟨[1, 3], 1⟩) from rfl)
        (GroupFails.one (show P.go Emit (P.just [2]) ⟨[1, 3], 1⟩
          = (.error ⟨1, Err.expectedFound [some 2] (some 3) ⟨1, 2⟩⟩, ⟨[1, 3], 2⟩) from rfl))),
   (group_order_shortcircuit Emit (.cons (P.just [1]) (.one (P.just [2]))) ⟨[1, 2], 0⟩).2.1
      _ _ (GroupRuns.cons
        (show P.go Emit (P.just [1]) ⟨[1, 2], 0⟩ = (.ok [1], ⟨[1, 2], 1⟩) from rfl)
        (GroupRuns.one (show P.go Emit (P.just [2]) ⟨[1, 2], 1⟩
          = (.ok [2], ⟨[1, 2], 2⟩) from rfl)))⟩

/-! ## TakeUntil (claim C5) -/

/-- The spec's algorithm for TakeUntil, written from the spec's words: repeatedly
attempt the terminator from the current position; on its success stop and return
the pair of the accumulated tokens and the terminator's output, leaving the cursor
where the terminator left it; on its failure rewind to before the attempt, consume
exactly one token, push it onto the Container, and retry; when end of input is
reached before the terminator ever succeeds, fail with exactly the error of the
last failed terminator attempt. -/
inductive TakeUntilRun {τ σ α : Type} [DecidableEq τ] (M : Mode) (ct : Container τ σ)
    (p : P τ α) :
    Cursor τ → M.out σ → (Except (Located τ) (M.out (σ × α)) × Cursor τ) → Prop where
  | stop {c c' : Cursor τ} {acc : M.out σ} {out : M.out α} :
      P.go M p c = (.ok out, c') →
      TakeUntilRun M ct p c acc (.ok (M.combine acc out fun o a => (o, a)), c')
  | step {c c' : Cursor τ} {acc : M.out σ} {e : Located τ} {tok : τ}
      {r : Except (Located τ) (M.out (σ × α)) × Cursor τ} :
      P.go M p c = (.error e, c') → c.input[c.offset]? = some tok →
      TakeUntilRun M ct p ⟨c.input, c.offset + 1⟩ (M.map acc fun o => ct.push o tok) r →
      TakeUntilRun M ct p c acc r
  | eoi {c c' : Cursor τ} {acc : M.out σ} {e : Located τ} :
      P.go M p c = (.error e, c') → c.input[c.offset]? = none →
      TakeUntilRun M ct p c acc (.error e, c)

theorem takeUntilAux_run {τ σ α : Type} [DecidableEq τ] (M : Mode)
    (ct : Container τ σ) (p : P τ α) :
    ∀ (fuel : Nat) (c : Cursor τ) (acc : M.out σ),
      fuel = c.input.length - c.offset →
      TakeUntilRun M ct p c acc (takeUntilAux M ct (fun c' => P.go M p c') fuel acc c) := by
  intro fuel
  induction fuel with
  | zero =>
      intro c acc hfuel
      rw [takeUntilAux]
      rcases hp : P.go M p c with ⟨r, c₁⟩
      cases r with
      | ok o => exact TakeUntilRun.stop hp
      | error e =>
          simp only [Cursor.rewind, Cursor.save]
          rcases h0 : c.input[c.offset]? with _ | t
          · rw [Cursor.next_none h0]
            exact TakeUntilRun.eoi hp h0
          · exfalso
            have hlt : c.offset < c.input.length := by
              by_contra hge
              rw [List.getElem?_eq_none (Nat.le_of_not_lt hge)] at h0
              cases h0
            omega
  | succ n ih =>
      intro c acc hfuel
      rw [takeUntilAux]
      rcases hp : P.go M p c with ⟨r, c₁⟩
      cases r with
      | ok o => exact TakeUntilRun.stop hp
      | error e =>
          simp only [Cursor.rewind, Cursor.save]
          rcases h0 : c.input[c.offset]? with _ | t
          · rw [Cursor.next_none h0]
            exact TakeUntilRun.eoi hp h0
          · rw [Cursor.next_some h0]
            have hlt : c.offset < c.input.length := by
              by_contra hge
              rw [List.getElem?_eq_none (Nat.le_of_not_lt hge)] at h0
              cases h0
            exact TakeUntilRun.step hp h0
              (ih ⟨c.input, c.offset + 1⟩ (M.map acc fun o => ct.push o t) (by simp; omega))

/-- C5: for every terminator parser and every input, TakeUntil follows the spec's
loop: attempt the terminator; on success stop with the pair (accumulated
Container, terminator output), leaving the cursor where the terminator left it; on
failure rewind to before the attempt, consume exactly one token, push it onto the
Container, and retry; if end of input is reached before the terminator ever
succeeds, fail with exactly the error from the last failed attempt. The actual run
of `TakeUntil::go`, started with the Container's default accumulator, is a run of
that algorithm. -/
theorem takeUntil_algorithm {τ σ α : Type} [DecidableEq τ] (M : Mode)
    (ct : Container τ σ) (p : P τ α) (c : Cursor τ) :
    TakeUntilRun M ct p c (M.bind fun _ => ct.default)
      (P.go M (.takeUntil ct p) c) := by
  simp only [P.go]
  exact takeUntilAux_run M ct p _ c _ rfl

/-! ## Just (claim C6) -/

theorem drop_cons_of_getElem {τ : Type} {l : List τ} {i : Nat} {t : τ}
    (h : l[i]? = some t) : l.drop i = t :: l.drop (i + 1) := by
  have hlt : i < l.length := by
    by_contra hge
    rw [List.getElem?_eq_none (Nat.le_of_not_lt hge)] at h
    cases h
  rw [List.drop_eq_getElem_cons hlt]
  have := List.getElem?_eq_getElem hlt
  rw [this] at h
  rw [Option.some.inj h]

theorem justLoop_prefix {τ : Type} [DecidableEq τ] (M : Mode) (seq : List τ) :
    ∀ (items : List τ) (c : Cursor τ),
      (c.input.drop c.offset).take items.length = items →
      justLoop M seq items c =
        (.ok (M.bind fun _ => seq), ⟨c.input, c.offset + items.length⟩)
  | [], c, _ => by simp [justLoop_nil]
  | n :: rest, c, h => by
      rcases hd : c.input.drop c.offset with _ | ⟨x, xs⟩
      · rw [hd] at h
        simp at h
      · rw [hd, List.length_cons, List.take_succ_cons] at h
        have hx : x = n := (List.cons.inj h).1
        have hxs : xs.take rest.length = rest := (List.cons.inj h).2
        have hnext : c.input[c.offset]? = some n := by
          have h0 : (c.input.drop c.offset)[0]? = c.input[c.offset + 0]? :=
            List.getElem?_drop c.input c.offset 0
          rw [hd, Nat.add_zero] at h0
          rw [← h0]
          simp [hx]
        have hdrop : c.input.drop (c.offset + 1) = xs := by
          have hdd : (c.input.drop c.offset).drop 1 = c.input.drop (c.offset + 1) :=
            List.drop_drop 1 c.offset c.input
          rw [hd] at hdd
          simpa using hdd.symm
        rw [justLoop_cons_match M seq n rest hnext rfl,
          justLoop_prefix M seq rest ⟨c.input, c.offset + 1⟩ (by rw [hdrop]; exact hxs)]
        rw [List.length_cons, Nat.add_assoc, Nat.add_comm 1 rest.length]

theorem justLoop_first_mismatch {τ : Type} [DecidableEq τ] (M : Mode) (seq : List τ) :
    ∀ (pre : List τ) (x : τ) (suf : List τ) (c : Cursor τ) (t : τ),
      (c.input.drop c.offset).take pre.length = pre →
      c.input[c.offset + pre.length]? = some t → ¬ x = t →
      justLoop M seq (pre ++ x :: suf) c =
        (.error ⟨c.offset + pre.length,
          Err.expectedFound [some x] (some t)
            ⟨c.offset + pre.length, c.offset + pre.length + 1⟩⟩,
         ⟨c.input, c.offset + pre.length + 1⟩)
  | [], x, suf, c, t, _, hat, hne => by
      rw [List.length_nil, Nat.add_zero] at hat
      simp only [List.nil_append, List.length_nil, Nat.add_zero]
      exact justLoop_cons_mismatch M seq x suf hat hne
  | p :: pre, x, suf, c, t, hpre, hat, hne => by
      rcases hd : c.input.drop c.offset with _ | ⟨y, ys⟩
      · rw [hd] at hpre
        simp at hpre
      · rw [hd, List.length_cons, List.take_succ_cons] at hpre
        have hy : y = p := (List.cons.inj hpre).1
        have hys : ys.take pre.length = pre := (List.cons.inj hpre).2
        have hnext : c.input[c.offset]? = some p := by
          have h0 : (c.input.drop c.offset)[0]? = c.input[c.offset + 0]? :=
            List.getElem?_drop c.input c.offset 0
          rw [hd, Nat.add_zero] at h0
          rw [← h0]
          simp [hy]
        have hdrop : c.input.drop (c.offset + 1) = ys := by
          have hdd : (c.input.drop c.offset).drop 1 = c.input.drop (c.offset + 1) :=
            List.drop_drop 1 c.offset c.input
          rw [hd] at hdd
          simpa using hdd.symm
        have e1 : c.offset + (p :: pre).length = c.offset + 1 + pre.length := by
          rw [List.length_cons]
          omega
        rw [e1] at hat ⊢
        rw [List.cons_append, justLoop_cons_match M seq p (pre ++ x :: suf) hnext rfl]
        exact justLoop_first_mismatch M seq pre x suf ⟨c.input, c.offset + 1⟩ t
          (by rw [hdrop]; exact hys) hat hne

theorem justLoop_first_eoi {τ : Type} [DecidableEq τ] (M : Mode) (seq : List τ) :
    ∀ (pre : List τ) (x : τ) (suf : List τ) (c : Cursor τ),
      (c.input.drop c.offset).take pre.length = pre →
      c.input[c.offset + pre.length]? = none →
      justLoop M seq (pre ++ x :: suf) c =
        (.error ⟨c.offset + pre.length,
          Err.expectedFound [some x] none
            ⟨c.offset + pre.length, c.offset + pre.length⟩⟩,
         ⟨c.input, c.offset + pre.length⟩)
  | [], x, suf, c, _, hat => by
      rw [List.length_nil, Nat.add_zero] at hat
      simp only [List.nil_append, List.length_nil, Nat.add_zero]
      exact justLoop_cons_eoi M seq x suf hat
  | p :: pre, x, suf, c, hpre, hat => by
      rcases hd : c.input.drop c.offset with _ | ⟨y, ys⟩
      · rw [hd] at hpre
        simp at hpre
      · rw [hd, List.length_cons, List.take_succ_cons] at hpre
        have hy : y = p := (List.cons.inj hpre).1
        have hys : ys.take pre.length = pre := (List.cons.inj hpre).2
        have hnext : c.input[c.offset]? = some p := by
          have h0 : (c.input.drop c.offset)[0]? = c.input[c.offset + 0]? :=
            List.getElem?_drop c.input c.offset 0
          rw [hd, Nat.add_zero] at h0
          rw [← h0]
          simp [hy]
        have hdrop : c.input.drop (c.offset + 1) = ys := by
          have hdd : (c.input.drop c.offset).drop 1 = c.input.drop (c.offset + 1) :=
            List.drop_drop 1 c.offset c.input
          rw [hd] at hdd
          simpa using hdd.symm
        have e1 : c.offset + (p :: pre).length = c.offset + 1 + pre.length := by
          rw [List.length_cons]
          omega
        rw [e1] at hat ⊢
        rw [List.cons_append, justLoop_cons_match M seq p (pre ++ x :: suf) hnext rfl]
        exact justLoop_first_eoi M seq pre x suf ⟨c.input, c.offset + 1⟩
          (by rw [hdrop]; exact hys) hat

theorem justLoop_ok_prefix {τ : Type} [DecidableEq τ] (M : Mode) (seq : List τ) :
    ∀ (items : List τ) (c : Cursor τ) (r : M.out (List τ)) (c' : Cursor τ),
      justLoop M seq items c = (.ok r, c') →
      (c.input.drop c.offset).take items.length = items
  | [], c, r, c', _ => by simp
  | n :: rest, c, r, c', h => by
      rcases h0 : c.input[c.offset]? with _ | t
      · rw [justLoop_cons_eoi M seq n rest h0] at h
        exact absurd h (by simp)
      · by_cases he : n = t
        · rw [justLoop_cons_match M seq n rest h0 he] at h
          have ih := justLoop_ok_prefix M seq rest ⟨c.input, c.offset + 1⟩ r c' h
          subst he
          rw [drop_cons_of_getElem h0, List.length_cons, List.take_succ_cons]
          simp only at ih
          rw [ih]
        · rw [justLoop_cons_mismatch M seq n rest h0 he] at h
          exact absurd h (by simp)

/-- C6: for every token sequence `seq` and every input, `Just(seq)` succeeds if
and only if the input starting at the cursor begins with the tokens of `seq` in
order; on success it consumes exactly `seq.length` tokens and outputs `seq`; on
the first mismatching token (`pre` of the sequence already matched, `x` the next
expected token found to mismatch) it fails with an error positioned at that
mismatch whose expected set is exactly the one token expected there and whose
found is the mismatching token, or `none` when end of input was reached instead. -/
theorem just_characterisation {τ : Type} [DecidableEq τ] (M : Mode) (seq : List τ)
    (c : Cursor τ) :
    ((c.input.drop c.offset).take seq.length = seq →
      P.go M (.just seq) c = (.ok (M.bind fun _ => seq), ⟨c.input, c.offset + seq.length⟩))
    ∧ (∀ r c', P.go M (.just seq) c = (.ok r, c') →
        (c.input.drop c.offset).take seq.length = seq)
    ∧ (∀ pre x suf t, seq = pre ++ x :: suf →
        (c.input.drop c.offset).take pre.length = pre →
        c.input[c.offset + pre.length]? = some t → ¬ x = t →
        P.go M (.just seq) c =
          (.error ⟨c.offset + pre.length,
            Err.expectedFound [some x] (some t)
              ⟨c.offset + pre.length, c.offset + pre.length + 1⟩⟩,
           ⟨c.input, c.offset + pre.length + 1⟩))
    ∧ (∀ pre x suf, seq = pre ++ x :: suf →
        (c.input.drop c.offset).take pre.length = pre →
        c.input[c.offset + pre.length]? = none →
        P.go M (.just seq) c =
          (.error ⟨c.offset + pre.length,
            Err.expectedFound [some x] none
              ⟨c.offset + pre.length, c.offset + pre.length⟩⟩,
           ⟨c.input, c.offset + pre.length⟩)) := by
  refine ⟨?_, ?_, ?_, ?_⟩
  · intro h
    simp only [P.go]
    exact justLoop_prefix M seq seq c h
  · intro r c' h
    simp only [P.go] at h
    exact justLoop_ok_prefix M seq seq c r c' h
  · intro pre x suf t hseq hpre hat hne
    subst hseq
    simp only [P.go]
    exact justLoop_first_mismatch M (pre ++ x :: suf) pre x suf c t hpre hat hne
  · intro pre x suf hseq hpre hat
    subst hseq
    simp only [P.go]
    exact justLoop_first_eoi M (pre ++ x :: suf) pre x suf c hpre hat

/-- Witness for C6, the spec's own scenario over characters: `Just "abc"` against
`"abc"` succeeds consuming three tokens and yields the sequence back; against
`"abd"` it fails at offset 2 with expected set containing exactly the token c and
found d. -/
theorem just_characterisation_witness :
    (P.go Emit (P.just (['a', 'b', 'c'] : List Char)) ⟨['a', 'b', 'c'], 0⟩
      = (.ok ['a', 'b', 'c'], ⟨['a', 'b', 'c'], 3⟩))
    ∧ (P.go Emit (P.just (['a', 'b', 'c'] : List Char)) ⟨['a', 'b', 'd'], 0⟩
      = (.error ⟨2, Err.expectedFound [some 'c'] (some 'd') ⟨2, 3⟩⟩, ⟨['a', 'b', 'd'], 3⟩)) :=
  ⟨(just_characterisation Emit ['a', 'b', 'c'] ⟨['a', 'b', 'c'], 0⟩).1 (by decide),
   (just_characterisation Emit ['a', 'b', 'c'] ⟨['a', 'b', 'd'], 0⟩).2.2.1
     ['a', 'b'] 'c' [] 'd' rfl (by decide) (by decide) (by decide)⟩

/-! ## End (claim C7), OneOf/NoneOf/Any (claims C8, C9, C10) -/

/-- Counterexample to C7 as stated: `End` on the non-empty input `[7]` does fail,
but the cursor after the failed `End` is at offset 1 — one past where it started —
because `End::go` reads one token and, like every primitive, never auto-rewinds.
The claim's assertion that the cursor is at the same position as before it ran is
false. -/
theorem end_no_rewind_counterexample :
    P.go Emit (P.endP : P Nat Unit) ⟨[7], 0⟩
      = (.error ⟨0, Err.expectedFound [] (some 7) ⟨0, 1⟩⟩, ⟨[7], 1⟩)
    ∧ (⟨[7], 1⟩ : Cursor Nat) ≠ ⟨[7], 0⟩ :=
  ⟨rfl, by decide⟩

/-- C7 (amended): for every input, `End` succeeds exactly when no token remains,
consuming nothing on success; on non-empty input it fails, having consumed exactly
the one token it inspected (the cursor after the failed `End` is one position past
where it started — primitives never auto-rewind). -/
theorem end_correct {τ : Type} [DecidableEq τ] (M : Mode) (c : Cursor τ) :
    (c.input[c.offset]? = none →
      P.go M (.endP : P τ Unit) c = (.ok (M.bind fun _ => ()), c))
    ∧ (∀ t, c.input[c.offset]? = some t →
        P.go M (.endP : P τ Unit) c =
          (.error ⟨c.offset, Err.expectedFound [] (some t) ⟨c.offset, c.offset + 1⟩⟩,
           ⟨c.input, c.offset + 1⟩)) := by
  constructor
  · intro h
    simp only [P.go]
    exact endGo_none M h
  · intro t h
    simp only [P.go]
    exact endGo_some M h

/-- Witness for the amended C7: `End` succeeds at end of input without moving, and
fails on a remaining token having consumed it. -/
theorem end_correct_witness :
    (P.go Emit (P.endP : P Nat Unit) ⟨[7], 1⟩ = (.ok (), ⟨[7], 1⟩))
    ∧ (P.go Emit (P.endP : P Nat Unit) ⟨[7], 0⟩
      = (.error ⟨0, Err.expectedFound [] (some 7) ⟨0, 1⟩⟩, ⟨[7], 1⟩)) :=
  ⟨(end_correct Emit ⟨[7], 1⟩).1 rfl, (end_correct Emit ⟨[7], 0⟩).2 7 rfl⟩

/-- C8: for every token t and every token set S, applied to an input whose next
token is t, exactly one of OneOf(S) and NoneOf(S) succeeds: if t is a member of S
then OneOf succeeds and NoneOf fails, and if t is not a member then NoneOf
succeeds and OneOf fails; whichever succeeds consumes exactly that one token and
outputs it; on empty input both fail. -/
theorem oneOf_noneOf_complementarity {τ : Type} [DecidableEq τ] (M : Mode)
    (seq : List τ) (c : Cursor τ) :
    (∀ t, c.input[c.offset]? = some t → t ∈ seq →
        P.go M (.oneOf seq) c = (.ok (M.bind fun _ => t), ⟨c.input, c.offset + 1⟩)
        ∧ (P.go M (.noneOf seq) c).1 =
            .error ⟨c.offset, Err.expectedFound [] (some t) ⟨c.offset, c.offset + 1⟩⟩)
    ∧ (∀ t, c.input[c.offset]? = some t → t ∉ seq →
        P.go M (.noneOf seq) c = (.ok (M.bind fun _ => t), ⟨c.input, c.offset + 1⟩)
        ∧ (P.go M (.oneOf seq) c).1 =
            .error ⟨c.offset,
              Err.expectedFound (seq.map some) (some t) ⟨c.offset, c.offset + 1⟩⟩)
    ∧ (c.input[c.offset]? = none →
        (P.go M (.oneOf seq) c).1 =
            .error ⟨c.offset, Err.expectedFound (seq.map some) none ⟨c.offset, c.offset⟩⟩
        ∧ (P.go M (.noneOf seq) c).1 =
            .error ⟨c.offset, Err.expectedFound [] none ⟨c.offset, c.offset⟩⟩) := by
  refine ⟨?_, ?_, ?_⟩
  · intro t h hm
    refine ⟨?_, ?_⟩
    · simp only [P.go]
      exact oneOfGo_some_mem M seq h hm
    · simp only [P.go, noneOfGo_some_mem M seq h hm]
  · intro t h hm
    refine ⟨?_, ?_⟩
    · simp only [P.go]
      exact noneOfGo_some_not_mem M seq h hm
    · simp only [P.go, oneOfGo_some_not_mem M seq h hm]
  · intro h
    exact ⟨by simp only [P.go, oneOfGo_none M seq h],
      by simp only [P.go, noneOfGo_none M seq h]⟩

/-- Witness for C8 with S = [1, 2]: next token 1 (a member) makes OneOf succeed
and NoneOf fail; next token 3 (not a member) makes NoneOf succeed and OneOf fail;
on empty input both fail. -/
theorem oneOf_noneOf_complementarity_witness :
    (P.go Emit (P.oneOf [1, 2]) ⟨[1], 0⟩ = (.ok (1 : Nat), ⟨[1], 1⟩)
      ∧ (P.go Emit (P.noneOf [1, 2]) ⟨[1], 0⟩).1 =
          .error ⟨0, Err.expectedFound [] (some 1) ⟨0, 1⟩⟩)
    ∧ (P.go Emit (P.noneOf [1, 2]) ⟨[3], 0⟩ = (.ok (3 : Nat), ⟨[3], 1⟩)
      ∧ (P.go Emit (P.oneOf [1, 2]) ⟨[3], 0⟩).1 =
          .error ⟨0, Err.expectedFound [some 1, some 2] (some 3) ⟨0, 1⟩⟩)
    ∧ ((P.go Emit (P.oneOf [1, 2]) ⟨[], 0⟩).1 =
          .error ⟨0, Err.expectedFound [some 1, some 2] none ⟨0, 0⟩⟩
      ∧ (P.go Emit (P.noneOf [1, 2]) ⟨[], 0⟩).1 =
          .error ⟨0, Err.expectedFound [] none ⟨0, 0⟩⟩) :=
  ⟨(oneOf_noneOf_complementarity Emit [1, 2] ⟨[1], 0⟩).1 1 rfl (by decide),
   (oneOf_noneOf_complementarity Emit [1, 2] ⟨[3], 0⟩).2.1 3 rfl (by decide),
   (oneOf_noneOf_complementarity Emit [1, 2] ⟨[], 0⟩).2.2 rfl⟩

/-- C9: for every token set S, when OneOf(S) fails — because the next token is
absent from S, or because of end of input — the error it constructs has an
expected set equal to all members of S (in order), and found equal to the
offending token, or none at end of input. -/
theorem oneOf_error_expected_set {τ : Type} [DecidableEq τ] (M : Mode)
    (seq : List τ) (c : Cursor τ) :
    (∀ t, c.input[c.offset]? = some t → t ∉ seq →
        P.go M (.oneOf seq) c =
          (.error ⟨c.offset,
            Err.expectedFound (seq.map some) (some t) ⟨c.offset, c.offset + 1⟩⟩,
           ⟨c.input, c.offset + 1⟩))
    ∧ (c.input[c.offset]? = none →
        P.go M (.oneOf seq) c =
          (.error ⟨c.offset, Err.expectedFound (seq.map some) none ⟨c.offset, c.offset⟩⟩,
           c)) := by
  constructor
  · intro t h hm
    simp only [P.go]
    exact oneOfGo_some_not_mem M seq h hm
  · intro h
    simp only [P.go]
    exact oneOfGo_none M seq h

/-- Witness for C9: OneOf([1, 2]) failing on 3 lists exactly the members 1, 2 as
expected with found 3, and failing at end of input lists the members with found
none. -/
theorem oneOf_error_expected_set_witness :
    (P.go Emit (P.oneOf [1, 2]) ⟨[3], 0⟩
      = (.error ⟨0, Err.expectedFound [some 1, some 2] (some 3) ⟨0, 1⟩⟩, ⟨[3], 1⟩))
    ∧ (P.go Emit (P.oneOf [1, 2]) ⟨[], 0⟩
      = (.error ⟨0, Err.expectedFound [some 1, some 2] none ⟨0, 0⟩⟩, ⟨[], 0⟩)) :=
  ⟨(oneOf_error_expected_set Emit [1, 2] ⟨[3], 0⟩).1 3 rfl (by decide),
   (oneOf_error_expected_set Emit [1, 2] ⟨[], 0⟩).2 rfl⟩

/-- C10: when NoneOf(S) fails — the next token is a member of S, or end of input —
and when Any fails — end of input — the error each constructs carries an empty
expected set, with found equal to the offending token or none at end of input; in
both cases the failing parser has consumed the one token it inspected, if any. -/
theorem noneOf_any_empty_expected {τ : Type} [DecidableEq τ] (M : Mode)
    (seq : List τ) (c : Cursor τ) :
    (∀ t, c.input[c.offset]? = some t → t ∈ seq →
        P.go M (.noneOf seq) c =
          (.error ⟨c.offset, Err.expectedFound [] (some t) ⟨c.offset, c.offset + 1⟩⟩,
           ⟨c.input, c.offset + 1⟩))
    ∧ (c.input[c.offset]? = none →
        P.go M (.noneOf seq) c =
          (.error ⟨c.offset, Err.expectedFound [] none ⟨c.offset, c.offset⟩⟩, c))
    ∧ (c.input[c.offset]? = none →
        P.go M (.anyP : P τ τ) c =
          (.error ⟨c.offset, Err.expectedFound [] none ⟨c.offset, c.offset⟩⟩, c)) := by
  refine ⟨?_, ?_, ?_⟩
  · intro t h hm
    simp only [P.go]
    exact noneOfGo_some_mem M seq h hm
  · intro h
    simp only [P.go]
    exact noneOfGo_none M seq h
  · intro h
    simp only [P.go]
    exact anyGo_none M h

/-- Witness for C10: NoneOf([1, 2]) failing on the member 1 reports an empty
expected set having consumed the token; at end of input NoneOf and Any both
report an empty expected set with found none. -/
theorem noneOf_any_empty_expected_witness :
    (P.go Emit (P.noneOf [1, 2]) ⟨[1], 0⟩
      = (.error ⟨0, Err.expectedFound [] (some 1) ⟨0, 1⟩⟩, ⟨[1], 1⟩))
    ∧ (P.go Emit (P.noneOf [1, 2]) ⟨[], 0⟩
      = (.error ⟨0, Err.expectedFound [] none ⟨0, 0⟩⟩, ⟨[], 0⟩))
    ∧ (P.go Emit (P.anyP : P Nat Nat) ⟨[], 0⟩
      = (.error ⟨0, Err.expectedFound [] none ⟨0, 0⟩⟩, ⟨[], 0⟩)) :=
  ⟨(noneOf_any_empty_expected Emit [1, 2] ⟨[1], 0⟩).1 1 rfl (by decide),
   (noneOf_any_empty_expected Emit [1, 2] ⟨[], 0⟩).2.1 rfl,
   (noneOf_any_empty_expected Emit ([1, 2] : List Nat) ⟨[], 0⟩).2.2 rfl⟩

end Chumsky
